import Mathlib

/-!
Verification of the chunking subsystem of a retrieval-augmented-generation
text pipeline.  Python text values are modelled as `List Char`; Python
dictionaries (the chunk records) are modelled as association lists
`List (String × FieldVal)` whose entries mirror the dict literals in the
source.  Machine integers are modelled as `Nat` (all quantities involved are
non-negative; where Python subtraction can go negative the surrounding
guard makes truncated subtraction agree, noted at each site).
-/

/-- Values stored in a chunk record: strings, integers, pairs (the
paragraph range tuple) and None. -/
inductive FieldVal where
  | vStr (s : List Char)
  | vNat (n : Nat)
  | vPair (a b : Nat)
  | vNone
  deriving DecidableEq, Repr

/-- A chunk record, mirroring a Python dict. -/
abbrev ChunkRec := List (String × FieldVal)

/-- Decimal rendering of a natural number, as produced by a Python
f-string interpolation such as f"chunk_{idx}". -/
def natToDecimal (n : Nat) : List Char :=
  if n = 0 then ['0'] else ((Nat.digits 10 n).map Nat.digitChar).reverse

/-- Python str.strip / regex whitespace class over the ASCII range:
space, tab, newline, carriage return, vertical tab, form feed. -/
def isPySpace (c : Char) : Bool :=
  c = ' ' || c = '\t' || c = '\n' || c = '\r' || c = '\x0b' || c = '\x0c'

/-- Python str.strip: drop leading and trailing whitespace. -/
def pyStrip (s : List Char) : List Char :=
  ((s.dropWhile isPySpace).reverse.dropWhile isPySpace).reverse

/-- The two-newline separator used when paragraphs are joined. -/
def nl2 : List Char := ['\n', '\n']

/-! ## Fixed-size chunker (src/text_chunk/fixed.py) -/

/-- The dict literal appended in FixedChunkProcessor.process (lines 50-57). -/
def fixedChunkRecord (idx : Nat) (source : List Char) (chunkText : List Char) :
    ChunkRec :=
  [("id", .vStr ("chunk_".toList ++ natToDecimal idx)),
   ("source", .vStr source),
   ("chunk_index", .vNat idx),
   ("text", .vStr chunkText)]

/-- Cursor advance of the fixed chunker (fixed.py lines 61-64):
next_start = end - overlap; if next_start <= start: next_start = end.
In Python end - overlap may be negative, but then it is <= start, so the
forced branch fires in both models and truncated subtraction agrees. -/
def fixedNextStart (start stop overlap : Nat) : Nat :=
  let next := stop - overlap
  if next ≤ start then stop else next

theorem fixedNextStart_gt (start stop overlap : Nat) (h : start < stop) :
    start < fixedNextStart start stop overlap := by
  unfold fixedNextStart
  dsimp only
  split <;> omega

/-- Main loop of FixedChunkProcessor.process (fixed.py lines 46-64).
Emits, for each iteration, the loop values (start, end) together with
the appended record; the record text is the Python slice text[start:end]. -/
def fixedLoop (text : List Char) (chunkSize overlap : Nat)
    (hcs : 0 < chunkSize) (source : List Char) (start idx : Nat) :
    List (Nat × Nat × ChunkRec) :=
  if h : start < text.length then
    let stop := min (start + chunkSize) text.length
    let chunkText := (text.drop start).take (stop - start)
    (start, stop, fixedChunkRecord idx source chunkText) ::
      fixedLoop text chunkSize overlap hcs source
        (fixedNextStart start stop overlap) (idx + 1)
  else []
termination_by text.length - start
decreasing_by
  have hlt : start < min (start + chunkSize) text.length := by omega
  have := fixedNextStart_gt start (min (start + chunkSize) text.length) overlap hlt
  omega

/-- FixedChunkProcessor.process (fixed.py lines 33-69): validate the
configuration, then run the loop from offset 0 with chunk index 0.  In the
Nat model overlap < 0 is impossible; the remaining validation checks are
those of lines 41-44. -/
def fixedProcess (text : List Char) (chunkSize overlap : Nat)
    (source : List Char) : Except String (List ChunkRec) :=
  if h : chunkSize = 0 then .error "chunk_size must be > 0"
  else if overlap ≥ chunkSize then .error "overlap must be >= 0 and < chunk_size"
  else .ok ((fixedLoop text chunkSize overlap (Nat.pos_of_ne_zero h) source 0 0).map
      (fun r => r.2.2))

/-! ## Record accessors used to state properties about chunk records -/

/-- Text field of a chunk record. -/
def recText (r : ChunkRec) : List Char :=
  match r.lookup "text" with
  | some (.vStr s) => s
  | _ => []

/-- A Nat-valued field of a chunk record (0 when absent). -/
def recNat (key : String) (r : ChunkRec) : Nat :=
  match r.lookup key with
  | some (.vNat n) => n
  | _ => 0

/-- First component of a pair-valued field (the paragraph_range start). -/
def recPairFst (key : String) (r : ChunkRec) : Nat :=
  match r.lookup key with
  | some (.vPair a _) => a
  | _ => 0

/-! ## Sliding-window chunker (src/text_chunk/sliding_window.py) -/

/-- The dict literal appended in SlidingWindowChunkProcessor.process
(sliding_window.py lines 51-58). -/
def slidingWindowRecord (idx : Nat) (source chunkText : List Char) : ChunkRec :=
  [("id", .vStr ("slide_chunk_".toList ++ natToDecimal idx)),
   ("source", .vStr source),
   ("chunk_index", .vNat idx),
   ("text", .vStr chunkText)]

/-- Main loop of SlidingWindowChunkProcessor.process (sliding_window.py
lines 47-61): emit text[start:end] with end = min(start + window_size,
text_len), then advance start by stride. -/
def slidingWindowLoop (text : List Char) (windowSize stride : Nat)
    (hs : 0 < stride) (source : List Char) (start idx : Nat) : List ChunkRec :=
  if h : start < text.length then
    let stop := min (start + windowSize) text.length
    slidingWindowRecord idx source ((text.drop start).take (stop - start)) ::
      slidingWindowLoop text windowSize stride hs source (start + stride) (idx + 1)
  else []
termination_by text.length - start
decreasing_by omega

/-- SlidingWindowChunkProcessor.process (sliding_window.py lines 33-66):
validation of lines 39-42 then the loop from offset 0. -/
def slidingWindowProcess (text : List Char) (windowSize stride : Nat)
    (source : List Char) : Except String (List ChunkRec) :=
  if windowSize = 0 then .error "window_size must be > 0"
  else if h : stride = 0 then .error "stride must be > 0"
  else .ok (slidingWindowLoop text windowSize stride (Nat.pos_of_ne_zero h) source 0 0)

/-! ## Hybrid sentence-grouping chunker (src/text_chunk/hybrid.py) -/

/-- State of the sentence accumulation loop of HybridChunkProcessor.process
(hybrid.py lines 87-102): cursor j, collected sentences, sentence count and
running character tally. -/
structure HybAcc where
  j : Nat
  cur : List (List Char)
  sCount : Nat
  currentChars : Nat
  deriving Repr, DecidableEq

/-- Inner accumulation loop of HybridChunkProcessor.process (hybrid.py
lines 91-102): add sentences while neither the sentence-count bound nor the
character bound (the latter only once min_sentences is reached) would be
exceeded. -/
def hybridAccumulate (sentences : List (List Char))
    (maxSentences maxChars minSentences : Nat)
    (j sCount currentChars : Nat) (cur : List (List Char)) : HybAcc :=
  if h : j < sentences.length then
    let sent := sentences.getD j []
    if sCount + 1 > maxSentences ∨
        (currentChars + sent.length > maxChars ∧ sCount ≥ minSentences) then
      ⟨j, cur, sCount, currentChars⟩
    else
      hybridAccumulate sentences maxSentences maxChars minSentences
        (j + 1) (sCount + 1) (currentChars + sent.length + 1) (cur ++ [sent])
  else ⟨j, cur, sCount, currentChars⟩
termination_by sentences.length - j

/-- Chunk formation step of HybridChunkProcessor.process (hybrid.py lines
86-109): run the accumulation loop from sentence i with empty state, then
apply the force-include fallback of lines 106-109 when no sentence was
added.  Returns (next j, collected sentences, sentence count). -/
def hybridChunkStart (sentences : List (List Char))
    (maxSentences maxChars minSentences : Nat) (i : Nat) :
    Nat × List (List Char) × Nat :=
  let acc := hybridAccumulate sentences maxSentences maxChars minSentences i 0 0 []
  if acc.sCount = 0 ∧ acc.j < sentences.length then
    (acc.j + 1, acc.cur ++ [sentences.getD acc.j []], 1)
  else (acc.j, acc.cur, acc.sCount)

/-- Cursor advance of the hybrid chunker (hybrid.py lines 124-128):
next_i = j - overlap_sentences; if next_i <= i: next_i = j.  A negative
Python value of next_i always triggers the forced branch, so truncated
subtraction agrees. -/
def hybridNextI (i j overlap : Nat) : Nat :=
  let next := j - overlap
  if next ≤ i then j else next

theorem hybridAccumulate_invariant (sentences : List (List Char))
    (maxSentences maxChars minSentences : Nat) :
    ∀ j sCount currentChars cur,
      (hybridAccumulate sentences maxSentences maxChars minSentences
          j sCount currentChars cur).j + sCount =
        j + (hybridAccumulate sentences maxSentences maxChars minSentences
          j sCount currentChars cur).sCount ∧
      (hybridAccumulate sentences maxSentences maxChars minSentences
          j sCount currentChars cur).j + cur.length =
        j + (hybridAccumulate sentences maxSentences maxChars minSentences
          j sCount currentChars cur).cur.length ∧
      j ≤ (hybridAccumulate sentences maxSentences maxChars minSentences
          j sCount currentChars cur).j := by
  have key : ∀ n j sCount currentChars cur, sentences.length - j ≤ n →
      (hybridAccumulate sentences maxSentences maxChars minSentences
          j sCount currentChars cur).j + sCount =
        j + (hybridAccumulate sentences maxSentences maxChars minSentences
          j sCount currentChars cur).sCount ∧
      (hybridAccumulate sentences maxSentences maxChars minSentences
          j sCount currentChars cur).j + cur.length =
        j + (hybridAccumulate sentences maxSentences maxChars minSentences
          j sCount currentChars cur).cur.length ∧
      j ≤ (hybridAccumulate sentences maxSentences maxChars minSentences
          j sCount currentChars cur).j := by
    intro n
    induction n with
    | zero =>
      intro j sCount currentChars cur hn
      unfold hybridAccumulate
      split
      · omega
      · simp
    | succ n ih =>
      intro j sCount currentChars cur hn
      unfold hybridAccumulate
      split
      · dsimp only
        split
        · simp
        · have := ih (j + 1) (sCount + 1)
            (currentChars + (sentences.getD j []).length + 1)
            (cur ++ [sentences.getD j []]) (by omega)
          simp only [List.length_append, List.length_cons, List.length_nil] at this ⊢
          omega
      · simp
  intro j sCount currentChars cur
  exact key (sentences.length - j) j sCount currentChars cur le_rfl

theorem hybridChunkStart_fst_gt (sentences : List (List Char))
    (maxSentences maxChars minSentences : Nat) (i : Nat)
    (h : i < sentences.length) :
    i < (hybridChunkStart sentences maxSentences maxChars minSentences i).1 := by
  unfold hybridChunkStart
  have hinv := hybridAccumulate_invariant sentences maxSentences maxChars
    minSentences i 0 0 []
  dsimp only
  split
  · omega
  · rename_i hcond
    rw [not_and_or] at hcond
    rcases hcond with hs | hj
    · omega
    · omega

/-- The dict literal appended in HybridChunkProcessor.process (hybrid.py
lines 112-119); the id of line 114 is the _make_id result, a "hyb_" prefix
followed by the first eight hex digits of a fresh uuid4 (modelled by the
uuid oracle). -/
def hybridChunkRecord (uuidHex : List Char) (source : List Char) (idx : Nat)
    (chunkText : List Char) : ChunkRec :=
  [("id", .vStr ("hyb_".toList ++ uuidHex)),
   ("source", .vStr source),
   ("chunk_index", .vNat idx),
   ("text", .vStr chunkText)]

/-- Main loop of HybridChunkProcessor.process (hybrid.py lines 85-128).
The uuids argument models the stream of uuid4().hex[:8] draws consumed by
_make_id, indexed by emission ordinal.  Each emission keeps the collected
sentence group next to the appended record; the record text is the
space-join of the group, stripped (line 111). -/
def hybridLoop (sentences : List (List Char))
    (maxSentences maxChars minSentences overlap : Nat)
    (source : List Char) (uuids : Nat → List Char) (i chunkIdx : Nat) :
    List (List (List Char) × ChunkRec) :=
  if h : i < sentences.length then
    let step := hybridChunkStart sentences maxSentences maxChars minSentences i
    let chunkText := pyStrip (List.intercalate [' '] step.2.1)
    (step.2.1, hybridChunkRecord (uuids chunkIdx) source chunkIdx chunkText) ::
      hybridLoop sentences maxSentences maxChars minSentences overlap source
        uuids (hybridNextI i step.1 overlap) (chunkIdx + 1)
  else []
termination_by sentences.length - i
decreasing_by
  have h1 := hybridChunkStart_fst_gt sentences maxSentences maxChars minSentences i h
  unfold hybridNextI
  dsimp only
  split <;> omega

/-- HybridChunkProcessor constructor validation (hybrid.py lines 49-56)
followed by process (lines 58-134) run on an already split sentence list. -/
def hybridProcess (sentences : List (List Char))
    (maxSentences maxChars minSentences overlap : Nat)
    (source : List Char) (uuids : Nat → List Char) :
    Except String (List ChunkRec) :=
  if maxChars = 0 then .error "max_chars must be > 0"
  else if maxSentences = 0 then .error "max_sentences must be > 0"
  else if minSentences < 1 then .error "min_sentences must be >= 1"
  else .ok ((hybridLoop sentences maxSentences maxChars minSentences overlap
      source uuids 0 0).map (fun r => r.2))

/-! ## Paragraph splitting

Python re.split with the patterns used by the repository.  A match of the
pattern backslash-n backslash-s-star backslash-n at a position requires a
newline, then a (possibly empty) whitespace stretch, then a final newline;
the regex engine takes the leftmost match start and, within it, the
greedy (longest) whitespace stretch that still leaves a final newline.
Since a newline is itself whitespace, a match starting at a newline exists
exactly when the maximal whitespace run after it contains a newline, and
the greedy match ends just after the last newline of that run. -/

/-- Index of the last newline of a character list, if any. -/
def lastNewlineIdx : List Char → Option Nat
  | [] => none
  | c :: rest =>
    match lastNewlineIdx rest with
    | some k => some (k + 1)
    | none => if c = '\n' then some 0 else none

/-- Scanner for re.split of the pattern backslash-n backslash-s-star
backslash-n (sliding_paragraph.py line 14): acc collects the current piece
in reverse; at each newline the maximal whitespace run after it is
examined and, when it contains a newline, the piece is closed and the scan
resumes after the last newline of the run. -/
def splitBlankGo (cs : List Char) (acc : List Char) : List (List Char) :=
  match cs with
  | [] => [acc.reverse]
  | c :: rest =>
    if c = '\n' then
      match lastNewlineIdx (rest.takeWhile isPySpace) with
      | some k => acc.reverse :: splitBlankGo (rest.drop (k + 1)) []
      | none => splitBlankGo rest (c :: acc)
    else splitBlankGo rest (c :: acc)
termination_by cs.length
decreasing_by
  · have := List.length_drop (k + 1) rest
    simp_all
    omega
  · simp
  · simp

/-- Scanner for re.split of the pattern backslash-n backslash-s-star
backslash-n-plus (paragraph.py line 19).  After backtracking the greedy
whitespace stretch to the last position holding a newline, the trailing
newline-plus part matches greedily from there. -/
def splitBlankPlusGo (cs : List Char) (acc : List Char) : List (List Char) :=
  match cs with
  | [] => [acc.reverse]
  | c :: rest =>
    if c = '\n' then
      match lastNewlineIdx (rest.takeWhile isPySpace) with
      | some k =>
        let m := ((rest.drop k).takeWhile (fun d => d = '\n')).length
        acc.reverse :: splitBlankPlusGo (rest.drop (k + m)) []
      | none => splitBlankPlusGo rest (c :: acc)
    else splitBlankPlusGo rest (c :: acc)
termination_by cs.length

/-- Normalization of line endings (paragraph.py line 17, hybrid.py
line 20): the two sequential replaces, CRLF to LF then CR to LF, fused
into one left-to-right scan (the two are equivalent because the first
scan is left to right over non-overlapping occurrences). -/
def normalizeNewlines : List Char → List Char
  | [] => []
  | '\r' :: '\n' :: rest => '\n' :: normalizeNewlines rest
  | '\r' :: rest => '\n' :: normalizeNewlines rest
  | c :: rest => c :: normalizeNewlines rest

/-- The comprehension applied to regex split results throughout the
repository: strip each piece and keep the non-empty ones. -/
def stripFilter (pieces : List (List Char)) : List (List Char) :=
  (pieces.map pyStrip).filter (fun p => ¬ p = [])

/-- split_into_paragraphs (paragraph.py lines 11-21): normalize line
endings, split on the blank-line pattern with a trailing newline-plus,
strip and drop empties. -/
def split_into_paragraphs (text : List Char) : List (List Char) :=
  stripFilter (splitBlankPlusGo (normalizeNewlines text) [])

/-- The split performed by paragraphs_from_text before its merge pass
(sliding_paragraph.py line 14): no normalization, pattern without the
trailing plus, strip and drop empties. -/
def paragraphsPreMerge (text : List Char) : List (List Char) :=
  stripFilter (splitBlankGo text [])

/-- Merge pass of paragraphs_from_text (sliding_paragraph.py lines 16-21):
a paragraph shorter than 30 characters is appended, with a blank-line
separator, onto the previous merged paragraph when one exists. -/
def mergeShortParas (paras : List (List Char)) : List (List Char) :=
  paras.foldl
    (fun merged p =>
      if p.length < 30 ∧ ¬ merged = [] then
        merged.dropLast ++ [merged.getLast! ++ nl2 ++ p]
      else merged ++ [p])
    []

/-- paragraphs_from_text (sliding_paragraph.py lines 12-22). -/
def paragraphs_from_text (text : List Char) : List (List Char) :=
  mergeShortParas (paragraphsPreMerge text)

/-! ## Paragraph-sliding chunker (src/text_chunk/sliding_paragraph.py) -/

/-- Cumulative character offsets of the paragraphs (sliding_paragraph.py
lines 90-94): each paragraph advances the offset by its length plus 2 for
the double-newline join. -/
def cumOffsetsFrom (offset : Nat) : List (List Char) → List Nat
  | [] => []
  | p :: rest => offset :: cumOffsetsFrom (offset + p.length + 2) rest

/-- Cumulative offsets starting at 0. -/
def cumOffsets (paras : List (List Char)) : List Nat := cumOffsetsFrom 0 paras

/-- Inner expansion loop of ParagraphSlidingChunkProcessor.process
(sliding_paragraph.py lines 108-119): extend end_para while the
concatenation (paragraphs joined by a blank line) does not exceed
max_chars; the break is suppressed while end_para equals start_para.
Returns the final (end_para, built). -/
def slideBuildLoop (paras : List (List Char)) (maxChars : Nat)
    (startPara endPara : Nat) (built : List Char) : Nat × List Char :=
  if h : endPara < paras.length then
    let candidate :=
      if built = [] then paras.getD endPara []
      else built ++ nl2 ++ paras.getD endPara []
    if candidate.length > maxChars ∧ endPara > startPara then (endPara, built)
    else slideBuildLoop paras maxChars startPara (endPara + 1) candidate
  else (endPara, built)
termination_by paras.length - endPara

theorem slideBuildLoop_fst_ge (paras : List (List Char)) (maxChars : Nat) :
    ∀ endPara startPara built,
      endPara ≤ (slideBuildLoop paras maxChars startPara endPara built).1 := by
  have key : ∀ n endPara startPara built, paras.length - endPara ≤ n →
      endPara ≤ (slideBuildLoop paras maxChars startPara endPara built).1 := by
    intro n
    induction n with
    | zero =>
      intro endPara startPara built hn
      unfold slideBuildLoop
      split
      · omega
      · simp
    | succ n ih =>
      intro endPara startPara built hn
      unfold slideBuildLoop
      split
      · dsimp only
        split <;> split
        · simp
        · have := ih (endPara + 1) startPara (paras.getD endPara []) (by omega)
          omega
        · simp
        · have := ih (endPara + 1) startPara
            (built ++ nl2 ++ paras.getD endPara []) (by omega)
          omega
      · simp
  intro endPara startPara built
  exact key (paras.length - endPara) endPara startPara built le_rfl

theorem slideBuildLoop_start_gt (paras : List (List Char)) (maxChars : Nat)
    (startPara : Nat) (h : startPara < paras.length) :
    startPara < (slideBuildLoop paras maxChars startPara startPara []).1 := by
  unfold slideBuildLoop
  rw [dif_pos h]
  dsimp only
  rw [if_neg (by simp)]
  have := slideBuildLoop_fst_ge paras maxChars (startPara + 1) startPara
    (if ([] : List Char) = [] then paras.getD startPara []
     else [] ++ nl2 ++ paras.getD startPara [])
  omega

/-- Cursor advance search of ParagraphSlidingChunkProcessor.process
(sliding_paragraph.py lines 149-153): the first index in
range(start_para + 1, n) whose cumulative offset is at least target_char. -/
def nextParaSearch (cum : List Nat) (startPara n target : Nat) : Option Nat :=
  (List.range' (startPara + 1) (n - (startPara + 1))).find?
    (fun idx => decide (target ≤ cum.getD idx 0))

/-- Cursor advance of ParagraphSlidingChunkProcessor.process
(sliding_paragraph.py lines 146-159): target_char = char_start + stride
with char_start = cum_offsets[start_para]; fall back to end_para when the
search fails or does not advance. -/
def slideNextStart (cum : List Nat) (stride startPara endPara n : Nat) : Nat :=
  let target := cum.getD startPara 0 + stride
  let next :=
    match nextParaSearch cum startPara n target with
    | some idx => idx
    | none => endPara
  if next ≤ startPara then endPara else next

theorem slideNextStart_gt (cum : List Nat) (stride startPara endPara n : Nat)
    (h : startPara < endPara) :
    startPara < slideNextStart cum stride startPara endPara n := by
  unfold slideNextStart
  dsimp only
  split <;> omega

/-- The dict literal of ParagraphSlidingChunkProcessor.process
(sliding_paragraph.py lines 132-142).  Python computes
max(start_para, end_para - 1) where end_para - 1 can be -1; the max with
the non-negative start_para then yields start_para, which agrees with the
truncated Nat subtraction.  The Python expression story_title or "" is the
identity on strings once None is excluded (the extractor always returns a
string title), so the title is stored unchanged. -/
def slideChunkRecord (idx : Nat) (source storyTitle : List Char)
    (chapterIdx : Option Nat) (startPara endPara charStart charEnd : Nat)
    (built : List Char) : ChunkRec :=
  [("chunk_id", .vStr ("para_slide_chunk_".toList ++ natToDecimal idx)),
   ("source", .vStr source),
   ("story_title", .vStr storyTitle),
   ("chapter_index", match chapterIdx with | some n => .vNat n | none => .vNone),
   ("chunk_index", .vNat idx),
   ("paragraph_range", .vPair startPara (max startPara (endPara - 1))),
   ("char_start", .vNat charStart),
   ("char_end", .vNat charEnd),
   ("text", .vStr built)]

/-- Main loop of ParagraphSlidingChunkProcessor.process
(sliding_paragraph.py lines 106-159).  The truncation fallback of lines
122-126 is kept as in the source; both branches compute char_start as the
cumulative offset of start_para and char_end as char_start plus the length
of the built text, so the two branches are fused over the built value. -/
def slideLoop (paras : List (List Char)) (cum : List Nat)
    (maxChars stride : Nat) (source storyTitle : List Char)
    (chapterIdx : Option Nat) (startPara chunkIdx : Nat) : List ChunkRec :=
  if h : startPara < paras.length then
    let r := slideBuildLoop paras maxChars startPara startPara []
    let built :=
      if r.2 = [] then (paras.getD startPara []).take maxChars else r.2
    let charStart := cum.getD startPara 0
    slideChunkRecord chunkIdx source storyTitle chapterIdx startPara r.1
        charStart (charStart + built.length) built ::
      slideLoop paras cum maxChars stride source storyTitle chapterIdx
        (slideNextStart cum stride startPara r.1 paras.length) (chunkIdx + 1)
  else []
termination_by paras.length - startPara
decreasing_by
  have h1 := slideBuildLoop_start_gt paras maxChars startPara h
  have h2 := slideNextStart_gt cum stride startPara
    (slideBuildLoop paras maxChars startPara startPara []).1 paras.length h1
  omega

/-- ParagraphSlidingChunkProcessor.process (sliding_paragraph.py lines
66-162): split and merge paragraphs, return [] when no paragraph remains,
compute cumulative offsets, validate window_size and stride, then run the
loop from paragraph 0.  The filename-derived provenance values of line 69
(extract_chapter_and_title) are passed in as storyTitle and chapterIdx. -/
def paraSlidingProcess (text : List Char) (windowSize stride : Nat)
    (source storyTitle : List Char) (chapterIdx : Option Nat) :
    Except String (List ChunkRec) :=
  let paras := paragraphs_from_text text
  if paras.length = 0 then .ok []
  else
    let cum := cumOffsets paras
    if windowSize = 0 ∨ stride = 0 then
      .error "window_size and stride must be > 0"
    else .ok (slideLoop paras cum windowSize stride source storyTitle chapterIdx 0 0)

/-! ## Chunk dispatcher (src/text_chunk/__init__.py) -/

/-- The six chunk processor classes selectable by the dispatcher. -/
inductive ProcessorKind where
  | fixed
  | sentence
  | paragraph
  | slidingWindow
  | hybrid
  | slidingParagraph
  deriving DecidableEq, Repr

/-- Model of fastapi.HTTPException as raised by the dispatcher. -/
structure HTTPExceptionModel where
  status_code : Nat
  detail : String
  deriving DecidableEq, Repr

/-- The chunk_types dict lookup of ChunkPlugin.process_chunk
(plugin module lines 24-32), keyed by the ChunkType string constants of
app/constants.py. -/
def chunkTypesGet (t : String) : Option ProcessorKind :=
  if t = "fixed" then some .fixed
  else if t = "sentence" then some .sentence
  else if t = "paragraph" then some .paragraph
  else if t = "sliding_window" then some .slidingWindow
  else if t = "hybrid" then some .hybrid
  else if t = "sliding_paragraph" then some .slidingParagraph
  else none

/-- ChunkPlugin.process_chunk processor selection (plugin module lines
24-43): an unknown chunk type raises HTTPException(status_code=400) before
any processor is constructed or invoked, so no chunk is emitted. -/
def process_chunk (t : String) : Except HTTPExceptionModel ProcessorKind :=
  match chunkTypesGet t with
  | none => .error ⟨400, "Unsupported chunk type: " ++ t⟩
  | some p => .ok p

/-- Second component of a pair-valued field (the paragraph_range end). -/
def recPairSnd (key : String) (r : ChunkRec) : Nat :=
  match r.lookup key with
  | some (.vPair _ b) => b
  | _ => 0

/-! ## Claims -/

/-- C9: every strategy identifier outside the six known chunk types makes
the dispatcher return the client-facing 400 unsupported-type error (no
crash), and no processor is selected, so zero chunks are emitted. -/
theorem C9_unknown_strategy_dispatch (t : String)
    (h : t ∉ ["fixed", "sentence", "paragraph", "sliding_window", "hybrid",
      "sliding_paragraph"]) :
    process_chunk t = .error ⟨400, "Unsupported chunk type: " ++ t⟩ ∧
      ∀ p, process_chunk t ≠ .ok p := by
  simp only [List.mem_cons, List.mem_singleton, not_or] at h
  obtain ⟨h1, h2, h3, h4, h5, h6⟩ := h
  have hg : chunkTypesGet t = none := by
    simp [chunkTypesGet, h1, h2, h3, h4, h5, h6]
  constructor
  · simp [process_chunk, hg]
  · intro p
    simp [process_chunk, hg]

theorem C9_unknown_strategy_dispatch_witness :
    ("unknown" ∉ ["fixed", "sentence", "paragraph", "sliding_window", "hybrid",
        "sliding_paragraph"]) ∧
      (process_chunk "unknown" =
          .error ⟨400, "Unsupported chunk type: " ++ "unknown"⟩ ∧
        ∀ p, process_chunk "unknown" ≠ .ok p) :=
  ⟨by decide, C9_unknown_strategy_dispatch "unknown" (by decide)⟩

/-- C2 counterexample: on ten a-characters with chunk_size 4 and overlap 1
the fixed chunker does not emit the three chunks text[0:4], text[3:7],
text[6:10] claimed by the spec example: after the third chunk the cursor
is 9 = 10 - 1, still below the text length, so a fourth chunk text[9:10]
is emitted. -/
theorem C2_three_chunk_example_false :
    ¬ (((fixedProcess (List.replicate 10 'a') 4 1 "f.txt".toList).toOption.getD []).map recText =
      [List.replicate 4 'a', List.replicate 4 'a', List.replicate 4 'a']) := by
  have h : fixedProcess (List.replicate 10 'a') 4 1 "f.txt".toList =
      Except.ok
        [fixedChunkRecord 0 "f.txt".toList (List.replicate 4 'a'),
         fixedChunkRecord 1 "f.txt".toList (List.replicate 4 'a'),
         fixedChunkRecord 2 "f.txt".toList (List.replicate 4 'a'),
         fixedChunkRecord 3 "f.txt".toList (List.replicate 1 'a')] := by
    simp [fixedProcess, fixedLoop, fixedNextStart, List.replicate]
  rw [h]
  decide

/-- C2 (amended): the fixed chunker on ten a-characters with chunk_size 4
and overlap 1 emits exactly four chunks, with texts text[0:4], text[3:7],
text[6:10] and text[9:10]; the loop stops once the cursor reaches the text
length. -/
theorem C2_fixed_example_four_chunks :
    fixedProcess (List.replicate 10 'a') 4 1 "f.txt".toList =
      Except.ok
        [fixedChunkRecord 0 "f.txt".toList (((List.replicate 10 'a').drop 0).take 4),
         fixedChunkRecord 1 "f.txt".toList (((List.replicate 10 'a').drop 3).take 4),
         fixedChunkRecord 2 "f.txt".toList (((List.replicate 10 'a').drop 6).take 4),
         fixedChunkRecord 3 "f.txt".toList (((List.replicate 10 'a').drop 9).take 1)] := by
  simp [fixedProcess, fixedLoop, fixedNextStart, List.replicate]

/-- C1: evaluation at the failing input.  On a text that is a single
paragraph of 8 characters with window_size 5, the paragraph-sliding
chunker emits one chunk whose paragraph_range covers exactly one paragraph
(0, 0) but whose text keeps all 8 characters: the truncation to
window_size promised by the spec (and by the comment above the dead
fallback branch at sliding_paragraph.py lines 121-126) never happens,
because the expansion loop only breaks when end_para exceeds start_para
and therefore always absorbs the first paragraph whole. -/
theorem C1_oversized_single_paragraph_untruncated :
    ((paraSlidingProcess (List.replicate 8 'a') 5 3 "f.txt".toList "F".toList
          none).toOption.getD []).map
        (fun r => (recPairFst "paragraph_range" r, recPairSnd "paragraph_range" r,
          (recText r).length)) = [(0, 0, 8)] := by
  have h : paraSlidingProcess (List.replicate 8 'a') 5 3 "f.txt".toList "F".toList none =
      Except.ok [slideChunkRecord 0 "f.txt".toList "F".toList none 0 1 0 8
        (List.replicate 8 'a')] := by
    simp [paraSlidingProcess, paragraphs_from_text, paragraphsPreMerge, splitBlankGo,
      lastNewlineIdx, isPySpace, stripFilter, pyStrip, mergeShortParas, cumOffsets,
      cumOffsetsFrom, slideLoop, slideBuildLoop, slideNextStart, nextParaSearch, nl2,
      List.replicate]
  rw [h]
  rfl

/-- C7 counterexample: the record emitted by the paragraph-sliding chunker
has no field named id at all; its identifier is stored under the key
chunk_id instead (sliding_paragraph.py line 133). -/
theorem C7_sliding_paragraph_lacks_id_field :
    ((paraSlidingProcess (List.replicate 8 'a') 5 3 "f.txt".toList "F".toList
          none).toOption.getD []).map (fun r => r.lookup "id") = [none] ∧
    ((paraSlidingProcess (List.replicate 8 'a') 5 3 "f.txt".toList "F".toList
          none).toOption.getD []).map (fun r => r.lookup "chunk_id") =
      [some (.vStr ("para_slide_chunk_".toList ++ natToDecimal 0))] := by
  have h : paraSlidingProcess (List.replicate 8 'a') 5 3 "f.txt".toList "F".toList none =
      Except.ok [slideChunkRecord 0 "f.txt".toList "F".toList none 0 1 0 8
        (List.replicate 8 'a')] := by
    simp [paraSlidingProcess, paragraphs_from_text, paragraphsPreMerge, splitBlankGo,
      lastNewlineIdx, isPySpace, stripFilter, pyStrip, mergeShortParas, cumOffsets,
      cumOffsetsFrom, slideLoop, slideBuildLoop, slideNextStart, nextParaSearch, nl2,
      List.replicate]
  rw [h]
  exact ⟨rfl, rfl⟩

/-- C3 counterexample: with the valid configuration max_chars 5,
max_sentences 10, overlap_sentences 0, min_sentences 2 and two sentences
of five characters each, the hybrid chunker emits one chunk holding both
sentences whose text is 11 characters long: more than max_chars although
the chunk is not a single oversized sentence.  The character-budget break
is suppressed until min_sentences sentences are collected (hybrid.py lines
94-97). -/
theorem C3_max_chars_exceeded_with_min_sentences_two :
    ¬ (∀ g ∈ hybridLoop [List.replicate 5 'a', List.replicate 5 'b'] 10 5 2 0
          "f.txt".toList (fun _ => []) 0 0,
        (recText g.2).length ≤ 5 ∨ g.1.length = 1) := by
  have h : hybridLoop [List.replicate 5 'a', List.replicate 5 'b'] 10 5 2 0
      "f.txt".toList (fun _ => []) 0 0 =
      [([List.replicate 5 'a', List.replicate 5 'b'],
        hybridChunkRecord [] "f.txt".toList 0
          (List.replicate 5 'a' ++ ' ' :: List.replicate 5 'b'))] := by
    simp [hybridLoop, hybridChunkStart, hybridAccumulate, hybridNextI, pyStrip,
      isPySpace, List.intercalate, List.replicate]
  rw [h]
  decide
theorem intercalate_append_single (s : List Char) :
    ∀ cur : List (List Char), cur ≠ [] →
      List.intercalate [' '] (cur ++ [s]) = List.intercalate [' '] cur ++ ' ' :: s := by
  intro cur
  induction cur with
  | nil => intro h; exact absurd rfl h
  | cons a t ih =>
    intro _
    cases t with
    | nil => simp [List.intercalate]
    | cons b u =>
      have := ih (by simp)
      simp only [List.cons_append, List.intercalate, List.intersperse] at this ⊢
      simp_all [List.intercalate]


theorem hybridAccumulate_sCount_mono (sentences : List (List Char))
    (maxSentences maxChars minSentences : Nat) (j sCount currentChars : Nat)
    (cur : List (List Char)) :
    sCount ≤ (hybridAccumulate sentences maxSentences maxChars minSentences
      j sCount currentChars cur).sCount := by
  have h := hybridAccumulate_invariant sentences maxSentences maxChars minSentences
    j sCount currentChars cur
  omega

theorem hybridAccumulate_master (sentences : List (List Char))
    (maxSentences maxChars minSentences : Nat) :
    ∀ n j sCount currentChars cur, sentences.length - j ≤ n →
      sCount = cur.length →
      (cur = [] → currentChars = 0) →
      (¬ cur = [] → currentChars = (List.intercalate [' '] cur).length + 1) →
      (minSentences + 1 ≤ sCount → (List.intercalate [' '] cur).length ≤ maxChars) →
      sCount ≤ maxSentences →
      ((hybridAccumulate sentences maxSentences maxChars minSentences
          j sCount currentChars cur).sCount =
        (hybridAccumulate sentences maxSentences maxChars minSentences
          j sCount currentChars cur).cur.length ∧
       (hybridAccumulate sentences maxSentences maxChars minSentences
          j sCount currentChars cur).sCount ≤ maxSentences ∧
       (minSentences + 1 ≤ (hybridAccumulate sentences maxSentences maxChars minSentences
          j sCount currentChars cur).sCount →
        (List.intercalate [' ']
          (hybridAccumulate sentences maxSentences maxChars minSentences
            j sCount currentChars cur).cur).length ≤ maxChars)) := by
  intro n
  induction n with
  | zero =>
    intro j sCount currentChars cur hn h1 h2 h3 h4 h5
    unfold hybridAccumulate
    split
    · omega
    · exact ⟨h1, h5, h4⟩
  | succ n ih =>
    intro j sCount currentChars cur hn h1 h2 h3 h4 h5
    unfold hybridAccumulate
    split
    · dsimp only
      split
      · exact ⟨h1, h5, h4⟩
      · rename_i hj hcond
        push_neg at hcond
        obtain ⟨hms, hmc⟩ := hcond
        set sent := sentences.getD j [] with hsent
        refine ih (j + 1) (sCount + 1) (currentChars + sent.length + 1)
          (cur ++ [sent]) (by omega) (by simp [h1]) (by simp) ?_ ?_ (by omega)
        · intro _
          by_cases hc : cur = []
          · subst hc
            simp [List.intercalate, h2 rfl]
          · rw [intercalate_append_single sent cur hc]
            have := h3 hc
            simp
            omega
        · intro hge
          have hsc : minSentences ≤ sCount := by omega
          have hcc : currentChars + sent.length ≤ maxChars := by
            by_contra hx
            push_neg at hx
            exact absurd (hmc hx) (by omega)
          by_cases hc : cur = []
          · subst hc
            simp [List.intercalate]
            have := h2 rfl
            omega
          · rw [intercalate_append_single sent cur hc]
            have := h3 hc
            simp
            omega
    · exact ⟨h1, h5, h4⟩

theorem hybridAccumulate_first (sentences : List (List Char))
    (maxSentences maxChars minSentences i : Nat) (hms : 1 ≤ maxSentences)
    (hmin : 1 ≤ minSentences) (h : i < sentences.length) :
    1 ≤ (hybridAccumulate sentences maxSentences maxChars minSentences
      i 0 0 []).sCount := by
  rw [hybridAccumulate]
  rw [dif_pos h]
  dsimp only
  rw [if_neg (by omega)]
  calc 1 ≤ 0 + 1 := by omega
    _ ≤ _ := hybridAccumulate_sCount_mono sentences maxSentences maxChars
        minSentences (i + 1) (0 + 1) (0 + (sentences.getD i []).length + 1)
        ([] ++ [sentences.getD i []])

theorem recText_hybridChunkRecord (u source : List Char) (idx : Nat) (t : List Char) :
    recText (hybridChunkRecord u source idx t) = t := rfl

theorem pyStrip_length_le (s : List Char) : (pyStrip s).length ≤ s.length := by
  unfold pyStrip
  calc ((s.dropWhile isPySpace).reverse.dropWhile isPySpace).reverse.length
      = ((s.dropWhile isPySpace).reverse.dropWhile isPySpace).length := by
        rw [List.length_reverse]
    _ ≤ (s.dropWhile isPySpace).reverse.length :=
        ((List.dropWhile_suffix isPySpace).sublist).length_le
    _ = (s.dropWhile isPySpace).length := by rw [List.length_reverse]
    _ ≤ s.length := ((List.dropWhile_suffix isPySpace).sublist).length_le

theorem hybridChunkStart_no_fallback (sentences : List (List Char))
    (maxSentences maxChars minSentences i : Nat) (hms : 1 ≤ maxSentences)
    (hmin : 1 ≤ minSentences) (h : i < sentences.length) :
    hybridChunkStart sentences maxSentences maxChars minSentences i =
      ((hybridAccumulate sentences maxSentences maxChars minSentences i 0 0 []).j,
       (hybridAccumulate sentences maxSentences maxChars minSentences i 0 0 []).cur,
       (hybridAccumulate sentences maxSentences maxChars minSentences i 0 0 []).sCount) := by
  have h1 := hybridAccumulate_first sentences maxSentences maxChars minSentences i hms hmin h
  unfold hybridChunkStart
  dsimp only
  rw [if_neg (by rintro ⟨h0, _⟩; omega)]

theorem hybridLoop_groups (sentences : List (List Char))
    (maxSentences maxChars minSentences overlap : Nat) (source : List Char)
    (uuids : Nat → List Char) (hms : 1 ≤ maxSentences) (hmin : 1 ≤ minSentences) :
    ∀ n i idx, sentences.length - i ≤ n →
      ∀ g ∈ hybridLoop sentences maxSentences maxChars minSentences overlap
          source uuids i idx,
        1 ≤ g.1.length ∧ g.1.length ≤ maxSentences ∧
          (minSentences = 1 → ((recText g.2).length ≤ maxChars ∨ g.1.length = 1)) := by
  intro n
  induction n with
  | zero =>
    intro i idx hn g hg
    rw [hybridLoop] at hg
    rw [dif_neg (by omega)] at hg
    exact absurd hg (List.not_mem_nil g)
  | succ n ih =>
    intro i idx hn g hg
    rw [hybridLoop] at hg
    by_cases hi : i < sentences.length
    · rw [dif_pos hi] at hg
      rw [hybridChunkStart_no_fallback sentences maxSentences maxChars minSentences
        i hms hmin hi] at hg
      dsimp only at hg
      have hfirst := hybridAccumulate_first sentences maxSentences maxChars
        minSentences i hms hmin hi
      have hmaster := hybridAccumulate_master sentences maxSentences maxChars
        minSentences (sentences.length - i) i 0 0 [] le_rfl (by simp) (by simp)
        (by simp) (by simp [List.intercalate]) (by omega)
      have hgt2 : i < (hybridAccumulate sentences maxSentences maxChars
          minSentences i 0 0 []).j := by
        have h3 := hybridChunkStart_fst_gt sentences maxSentences maxChars minSentences i hi
        rw [hybridChunkStart_no_fallback sentences maxSentences maxChars minSentences
          i hms hmin hi] at h3
        exact h3
      rcases List.mem_cons.mp hg with hhead | hmem
      · subst hhead
        dsimp only
        refine ⟨by omega, by omega, ?_⟩
        intro hmin1
        subst hmin1
        by_cases h2 : 2 ≤ (hybridAccumulate sentences maxSentences maxChars
            1 i 0 0 []).sCount
        · left
          rw [recText_hybridChunkRecord]
          calc (pyStrip (List.intercalate [' ']
                (hybridAccumulate sentences maxSentences maxChars 1 i 0 0 []).cur)).length
              ≤ (List.intercalate [' ']
                (hybridAccumulate sentences maxSentences maxChars 1 i 0 0 []).cur).length :=
                pyStrip_length_le _
            _ ≤ maxChars := hmaster.2.2 (by omega)
        · right
          omega
      · have hnext2 : i < hybridNextI i (hybridAccumulate sentences maxSentences maxChars
            minSentences i 0 0 []).j overlap := by
          unfold hybridNextI
          dsimp only
          split <;> omega
        exact ih (hybridNextI i (hybridAccumulate sentences maxSentences maxChars
          minSentences i 0 0 []).j overlap) (idx + 1) (by omega) g hmem
    · rw [dif_neg hi] at hg
      exact absurd hg (List.not_mem_nil g)

/-- C10: with any valid configuration (max_sentences >= 1,
min_sentences >= 1) the accumulation loop always adds the first candidate
sentence, so the force-include fallback of hybrid.py lines 106-109 is never
executed (hybridChunkStart always returns the plain accumulator state) and
every emitted chunk holds at least one sentence. -/
theorem C10_force_include_fallback_dead (sentences : List (List Char))
    (maxSentences maxChars minSentences overlap : Nat) (source : List Char)
    (uuids : Nat → List Char) (hms : 1 ≤ maxSentences) (hmin : 1 ≤ minSentences) :
    (∀ i, i < sentences.length →
      1 ≤ (hybridAccumulate sentences maxSentences maxChars minSentences
          i 0 0 []).sCount ∧
      hybridChunkStart sentences maxSentences maxChars minSentences i =
        ((hybridAccumulate sentences maxSentences maxChars minSentences i 0 0 []).j,
         (hybridAccumulate sentences maxSentences maxChars minSentences i 0 0 []).cur,
         (hybridAccumulate sentences maxSentences maxChars minSentences i 0 0 []).sCount)) ∧
    (∀ i idx, ∀ g ∈ hybridLoop sentences maxSentences maxChars minSentences overlap
        source uuids i idx, 1 ≤ g.1.length) := by
  constructor
  · intro i hi
    exact ⟨hybridAccumulate_first sentences maxSentences maxChars minSentences i
        hms hmin hi,
      hybridChunkStart_no_fallback sentences maxSentences maxChars minSentences i
        hms hmin hi⟩
  · intro i idx g hg
    exact (hybridLoop_groups sentences maxSentences maxChars minSentences overlap
      source uuids hms hmin (sentences.length - i) i idx le_rfl g hg).1

theorem C10_force_include_fallback_dead_witness :
    (1 ≤ 1 ∧ 1 ≤ 1) ∧
    ((∀ i, i < ([[' ', 'x']] : List (List Char)).length →
      1 ≤ (hybridAccumulate [[' ', 'x']] 1 1 1 i 0 0 []).sCount ∧
      hybridChunkStart [[' ', 'x']] 1 1 1 i =
        ((hybridAccumulate [[' ', 'x']] 1 1 1 i 0 0 []).j,
         (hybridAccumulate [[' ', 'x']] 1 1 1 i 0 0 []).cur,
         (hybridAccumulate [[' ', 'x']] 1 1 1 i 0 0 []).sCount)) ∧
    (∀ i idx, ∀ g ∈ hybridLoop [[' ', 'x']] 1 1 1 0 [] (fun _ => []) i idx,
      1 ≤ g.1.length)) :=
  ⟨⟨le_rfl, le_rfl⟩,
    C10_force_include_fallback_dead [[' ', 'x']] 1 1 1 0 [] (fun _ => [])
      le_rfl le_rfl⟩

/-- C3 (amended): for every valid hybrid configuration every emitted chunk
holds at most max_sentences sentences; and when min_sentences = 1 the
chunk text has at most max_chars characters unless the chunk consists of a
single sentence (which may alone exceed max_chars).  For
min_sentences >= 2 the character bound can fail on multi-sentence chunks,
as the counterexample shows. -/
theorem C3_hybrid_chunk_bounds (sentences : List (List Char))
    (maxSentences maxChars minSentences overlap : Nat) (source : List Char)
    (uuids : Nat → List Char) (hms : 1 ≤ maxSentences) (hmc : 1 ≤ maxChars)
    (hmin : 1 ≤ minSentences) :
    ∀ i idx, ∀ g ∈ hybridLoop sentences maxSentences maxChars minSentences overlap
        source uuids i idx,
      g.1.length ≤ maxSentences ∧
        (minSentences = 1 → ((recText g.2).length ≤ maxChars ∨ g.1.length = 1)) := by
  intro i idx g hg
  have h := hybridLoop_groups sentences maxSentences maxChars minSentences overlap
    source uuids hms hmin (sentences.length - i) i idx le_rfl g hg
  exact ⟨h.2.1, h.2.2⟩

theorem C3_hybrid_chunk_bounds_witness :
    (1 ≤ 1 ∧ 1 ≤ 1 ∧ 1 ≤ 1) ∧
    (∀ i idx, ∀ g ∈ hybridLoop [['x', 'y']] 1 1 1 0 [] (fun _ => []) i idx,
      g.1.length ≤ 1 ∧ (1 = 1 → ((recText g.2).length ≤ 1 ∨ g.1.length = 1))) :=
  ⟨⟨le_rfl, le_rfl, le_rfl⟩,
    C3_hybrid_chunk_bounds [['x', 'y']] 1 1 1 0 [] (fun _ => [])
      le_rfl le_rfl le_rfl⟩
/-- Reconstruction operator of the claim: concatenate the chunk texts,
dropping from each chunk the first (previous end - this start) characters;
the initial previous end is 0, so the first chunk (start 0) is whole. -/
def reconFrom (p : Nat) : List (Nat × Nat × ChunkRec) → List Char
  | [] => []
  | c :: rest => (recText c.2.2).drop (p - c.1) ++ reconFrom c.2.1 rest

theorem reconFrom_fixedLoop (text : List Char) (chunkSize overlap : Nat)
    (hcs : 0 < chunkSize) (hov : overlap < chunkSize) (source : List Char) :
    ∀ n s p idx, text.length - s ≤ n → s ≤ p → p ≤ s + chunkSize →
      p ≤ text.length →
      reconFrom p (fixedLoop text chunkSize overlap hcs source s idx) =
        text.drop p := by
  intro n
  induction n with
  | zero =>
    intro s p idx hn hsp hpc hpl
    rw [fixedLoop]
    rw [dif_neg (by omega)]
    rw [reconFrom]
    exact (List.drop_eq_nil_of_le (by omega)).symm
  | succ n ih =>
    intro s p idx hn hsp hpc hpl
    rw [fixedLoop]
    by_cases hs : s < text.length
    · rw [dif_pos hs]
      dsimp only
      rw [reconFrom]
      dsimp only
      have hstop : s < min (s + chunkSize) text.length := by omega
      have hrec : recText (fixedChunkRecord idx source
          ((text.drop s).take (min (s + chunkSize) text.length - s))) =
          (text.drop s).take (min (s + chunkSize) text.length - s) := rfl
      rw [hrec]
      have hnext : s < fixedNextStart s (min (s + chunkSize) text.length) overlap :=
        fixedNextStart_gt s _ overlap hstop
      have hnle : fixedNextStart s (min (s + chunkSize) text.length) overlap ≤
          min (s + chunkSize) text.length := by
        unfold fixedNextStart
        dsimp only
        split <;> omega
      have hcs2 : min (s + chunkSize) text.length ≤
          fixedNextStart s (min (s + chunkSize) text.length) overlap + chunkSize := by
        unfold fixedNextStart
        dsimp only
        split
        · omega
        · omega
      have hIH := ih (fixedNextStart s (min (s + chunkSize) text.length) overlap)
        (min (s + chunkSize) text.length) (idx + 1) (by omega) hnle hcs2 (by omega)
      rw [hIH]
      have hA : ((text.drop s).take (min (s + chunkSize) text.length - s)).drop (p - s) =
          (text.drop p).take (min (s + chunkSize) text.length - p) := by
        rw [List.drop_take]
        rw [List.drop_drop]
        congr 1
        · omega
        · congr 1
          omega
      rw [hA]
      have hB : (text.drop p).take (min (s + chunkSize) text.length - p) ++
          text.drop (min (s + chunkSize) text.length) = text.drop p := by
        have hdd : (text.drop p).drop (min (s + chunkSize) text.length - p) =
            text.drop (min (s + chunkSize) text.length) := by
          rw [List.drop_drop]
          congr 1
          omega
        rw [← hdd]
        exact List.take_append_drop _ _
      rw [hB]
    · rw [dif_neg hs]
      rw [reconFrom]
      exact (List.drop_eq_nil_of_le (by omega)).symm

/-- C5: for every text and valid fixed-chunker configuration, dropping
from each chunk the overlap with the previous chunk (previous end minus
this start; the first chunk whole) and concatenating reconstructs the
original text exactly. -/
theorem C5_fixed_reconstruction (text : List Char) (chunkSize overlap : Nat)
    (source : List Char) (hcs : 0 < chunkSize) (hov : overlap < chunkSize) :
    reconFrom 0 (fixedLoop text chunkSize overlap hcs source 0 0) = text := by
  have := reconFrom_fixedLoop text chunkSize overlap hcs hov source
    text.length 0 0 0 (by omega) le_rfl (by omega) (by omega)
  simpa using this

theorem C5_fixed_reconstruction_witness :
    (0 < 2 ∧ 1 < 2) ∧
      reconFrom 0 (fixedLoop ['a', 'b', 'c'] 2 1 (by omega) "f".toList 0 0) =
        ['a', 'b', 'c'] :=
  ⟨⟨by omega, by omega⟩,
    C5_fixed_reconstruction ['a', 'b', 'c'] 2 1 "f".toList (by omega) (by omega)⟩
theorem fixedLoop_length_le (text : List Char) (chunkSize overlap : Nat)
    (hcs : 0 < chunkSize) (source : List Char) :
    ∀ n start idx, text.length - start ≤ n →
      (fixedLoop text chunkSize overlap hcs source start idx).length ≤
        text.length - start := by
  intro n
  induction n with
  | zero =>
    intro start idx hn
    rw [fixedLoop]
    rw [dif_neg (by omega)]
    simp
  | succ n ih =>
    intro start idx hn
    rw [fixedLoop]
    by_cases hs : start < text.length
    · rw [dif_pos hs]
      dsimp only
      rw [List.length_cons]
      have hnext := fixedNextStart_gt start (min (start + chunkSize) text.length)
        overlap (by omega)
      have := ih (fixedNextStart start (min (start + chunkSize) text.length) overlap)
        (idx + 1) (by omega)
      omega
    · rw [dif_neg hs]
      simp
  
theorem slidingWindowLoop_length_le (text : List Char) (windowSize stride : Nat)
    (hs : 0 < stride) (source : List Char) :
    ∀ n start idx, text.length - start ≤ n →
      (slidingWindowLoop text windowSize stride hs source start idx).length ≤
        text.length - start := by
  intro n
  induction n with
  | zero =>
    intro start idx hn
    rw [slidingWindowLoop]
    rw [dif_neg (by omega)]
    simp
  | succ n ih =>
    intro start idx hn
    rw [slidingWindowLoop]
    by_cases hlt : start < text.length
    · rw [dif_pos hlt]
      dsimp only
      rw [List.length_cons]
      have := ih (start + stride) (idx + 1) (by omega)
      omega
    · rw [dif_neg hlt]
      simp

/-- C4: progress and termination.  Each loop-based chunker strictly
advances its cursor on every iteration: the fixed chunker from any start
below the text length, the sliding-window chunker by its positive stride,
the hybrid chunker past the chunk-formation step, and the
paragraph-sliding chunker past the expansion and advance steps; and the
fixed and sliding-window chunkers emit at most one chunk per character, so
their chunk counts are bounded by the text length. -/
theorem C4_cursor_progress_and_termination :
    (∀ (text : List Char) (chunkSize overlap start : Nat), 0 < chunkSize →
      start < text.length →
      start < fixedNextStart start (min (start + chunkSize) text.length) overlap) ∧
    (∀ (stride start : Nat), 0 < stride → start < start + stride) ∧
    (∀ (sentences : List (List Char)) (maxSentences maxChars minSentences
        overlap i : Nat), i < sentences.length →
      i < hybridNextI i
        (hybridChunkStart sentences maxSentences maxChars minSentences i).1 overlap) ∧
    (∀ (paras : List (List Char)) (cum : List Nat) (maxChars stride startPara : Nat),
      startPara < paras.length →
      startPara < slideNextStart cum stride startPara
        (slideBuildLoop paras maxChars startPara startPara []).1 paras.length) ∧
    (∀ (text : List Char) (chunkSize overlap : Nat) (hcs : 0 < chunkSize)
        (source : List Char),
      (fixedLoop text chunkSize overlap hcs source 0 0).length ≤ text.length) ∧
    (∀ (text : List Char) (windowSize stride : Nat) (hs : 0 < stride)
        (source : List Char),
      (slidingWindowLoop text windowSize stride hs source 0 0).length ≤ text.length) := by
  refine ⟨?_, ?_, ?_, ?_, ?_, ?_⟩
  · intro text chunkSize overlap start hcs hlt
    exact fixedNextStart_gt start _ overlap (by omega)
  · intro stride start hs
    omega
  · intro sentences maxSentences maxChars minSentences overlap i hi
    have := hybridChunkStart_fst_gt sentences maxSentences maxChars minSentences i hi
    unfold hybridNextI
    dsimp only
    split <;> omega
  · intro paras cum maxChars stride startPara hlt
    exact slideNextStart_gt cum stride startPara _ paras.length
      (slideBuildLoop_start_gt paras maxChars startPara hlt)
  · intro text chunkSize overlap hcs source
    have := fixedLoop_length_le text chunkSize overlap hcs source text.length 0 0
      (by omega)
    omega
  · intro text windowSize stride hs source
    have := slidingWindowLoop_length_le text windowSize stride hs source
      text.length 0 0 (by omega)
    omega

theorem C4_cursor_progress_and_termination_witness :
    (0 < 2 ∧ 0 < 1 ∧ 0 < 3) ∧
    (0 < fixedNextStart 0 (min (0 + 2) (['a', 'b', 'c'] : List Char).length) 1 ∧
     (0 : Nat) < 0 + 3 ∧
     0 < hybridNextI 0 (hybridChunkStart [['a']] 1 1 1 0).1 0 ∧
     0 < slideNextStart [0] 3 0 (slideBuildLoop [['a']] 1 0 0 []).1 1 ∧
     (fixedLoop ['a', 'b', 'c'] 2 1 (Nat.succ_pos 1) [] 0 0).length ≤ 3 ∧
     (slidingWindowLoop ['a', 'b', 'c'] 2 3 (Nat.succ_pos 2) [] 0 0).length ≤ 3) :=
  ⟨⟨by omega, by omega, by omega⟩,
    ⟨C4_cursor_progress_and_termination.1 ['a', 'b', 'c'] 2 1 0 (by omega) (by decide),
     C4_cursor_progress_and_termination.2.1 3 0 (by omega),
     C4_cursor_progress_and_termination.2.2.1 [['a']] 1 1 1 0 0 (by decide),
     C4_cursor_progress_and_termination.2.2.2.1 [['a']] [0] 1 3 0 (by decide),
     C4_cursor_progress_and_termination.2.2.2.2.1 ['a', 'b', 'c'] 2 1 (Nat.succ_pos 1) [],
     C4_cursor_progress_and_termination.2.2.2.2.2 ['a', 'b', 'c'] 2 3 (Nat.succ_pos 2) []⟩⟩
theorem cumOffsetsFrom_getD_ge (paras : List (List Char)) :
    ∀ off i, i < paras.length → off ≤ (cumOffsetsFrom off paras).getD i 0 := by
  induction paras with
  | nil => intro off i hi; simp at hi
  | cons p rest ih =>
    intro off i hi
    cases i with
    | zero => simp [cumOffsetsFrom]
    | succ i =>
      have := ih (off + p.length + 2) i (by simpa using hi)
      simp only [cumOffsetsFrom, List.getD_cons_succ]
      omega

theorem cumOffsetsFrom_mono (paras : List (List Char)) :
    ∀ off i j, i ≤ j → j < paras.length →
      (cumOffsetsFrom off paras).getD i 0 ≤ (cumOffsetsFrom off paras).getD j 0 := by
  induction paras with
  | nil => intro off i j hij hj; simp at hj
  | cons p rest ih =>
    intro off i j hij hj
    cases i with
    | zero =>
      cases j with
      | zero => exact le_rfl
      | succ j =>
        simp only [cumOffsetsFrom, List.getD_cons_zero, List.getD_cons_succ]
        have := cumOffsetsFrom_getD_ge rest (off + p.length + 2) j (by simpa using hj)
        omega
    | succ i =>
      cases j with
      | zero => omega
      | succ j =>
        simp only [cumOffsetsFrom, List.getD_cons_succ]
        exact ih (off + p.length + 2) i j (by omega) (by simpa using hj)

theorem recPairFst_slideChunkRecord (idx : Nat) (source storyTitle : List Char)
    (chapterIdx : Option Nat) (startPara endPara charStart charEnd : Nat)
    (built : List Char) :
    recPairFst "paragraph_range" (slideChunkRecord idx source storyTitle chapterIdx
      startPara endPara charStart charEnd built) = startPara := rfl

theorem recNat_charStart_slideChunkRecord (idx : Nat) (source storyTitle : List Char)
    (chapterIdx : Option Nat) (startPara endPara charStart charEnd : Nat)
    (built : List Char) :
    recNat "char_start" (slideChunkRecord idx source storyTitle chapterIdx
      startPara endPara charStart charEnd built) = charStart := rfl

theorem slideLoop_monotone (paras : List (List Char)) (maxChars stride : Nat)
    (source storyTitle : List Char) (chapterIdx : Option Nat) :
    ∀ n startPara chunkIdx, paras.length - startPara ≤ n →
      (∀ r ∈ slideLoop paras (cumOffsets paras) maxChars stride source storyTitle
          chapterIdx startPara chunkIdx,
        startPara ≤ recPairFst "paragraph_range" r ∧
        recPairFst "paragraph_range" r < paras.length ∧
        recNat "char_start" r =
          (cumOffsets paras).getD (recPairFst "paragraph_range" r) 0) ∧
      List.Pairwise (fun a b =>
          recNat "char_start" a ≤ recNat "char_start" b ∧
          recPairFst "paragraph_range" a ≤ recPairFst "paragraph_range" b)
        (slideLoop paras (cumOffsets paras) maxChars stride source storyTitle
          chapterIdx startPara chunkIdx) := by
  intro n
  induction n with
  | zero =>
    intro startPara chunkIdx hn
    rw [slideLoop]
    rw [dif_neg (by omega)]
    exact ⟨by simp, List.Pairwise.nil⟩
  | succ n ih =>
    intro startPara chunkIdx hn
    rw [slideLoop]
    by_cases hsp : startPara < paras.length
    · rw [dif_pos hsp]
      dsimp only
      have hprog : startPara < slideNextStart (cumOffsets paras) stride startPara
          (slideBuildLoop paras maxChars startPara startPara []).1 paras.length :=
        slideNextStart_gt _ _ _ _ _
          (slideBuildLoop_start_gt paras maxChars startPara hsp)
      have hih := ih (slideNextStart (cumOffsets paras) stride startPara
          (slideBuildLoop paras maxChars startPara startPara []).1 paras.length)
        (chunkIdx + 1) (by omega)
      constructor
      · intro r hr
        rcases List.mem_cons.mp hr with hhead | hmem
        · subst hhead
          rw [recPairFst_slideChunkRecord, recNat_charStart_slideChunkRecord]
          exact ⟨le_rfl, hsp, rfl⟩
        · have := hih.1 r hmem
          exact ⟨by omega, this.2.1, this.2.2⟩
      · rw [List.pairwise_cons]
        refine ⟨?_, hih.2⟩
        intro b hb
        have hbspec := hih.1 b hb
        rw [recPairFst_slideChunkRecord, recNat_charStart_slideChunkRecord]
        constructor
        · rw [hbspec.2.2]
          exact le_trans
            (cumOffsetsFrom_mono paras 0 startPara
              (recPairFst "paragraph_range" b) (by omega) hbspec.2.1)
            le_rfl
        · omega
    · rw [dif_neg hsp]
      exact ⟨by simp, List.Pairwise.nil⟩

/-- C6: across the sequence emitted by the paragraph-sliding chunker the
char_start values and the paragraph_range start indices are both
non-decreasing. -/
theorem C6_sliding_para_monotone (text : List Char) (windowSize stride : Nat)
    (source storyTitle : List Char) (chapterIdx : Option Nat)
    (recs : List ChunkRec)
    (h : paraSlidingProcess text windowSize stride source storyTitle chapterIdx =
      .ok recs) :
    List.Pairwise (fun a b =>
      recNat "char_start" a ≤ recNat "char_start" b ∧
      recPairFst "paragraph_range" a ≤ recPairFst "paragraph_range" b) recs := by
  unfold paraSlidingProcess at h
  dsimp only at h
  split at h
  · cases h
    exact List.Pairwise.nil
  · split at h
    · cases h
    · cases h
      exact (slideLoop_monotone (paragraphs_from_text text) windowSize stride source
        storyTitle chapterIdx ((paragraphs_from_text text).length) 0 0 (by omega)).2

theorem C6_sliding_para_monotone_witness :
    paraSlidingProcess ['a'] 1 1 [] [] none =
      Except.ok [slideChunkRecord 0 [] [] none 0 1 0 1 ['a']] ∧
    List.Pairwise (fun a b =>
      recNat "char_start" a ≤ recNat "char_start" b ∧
      recPairFst "paragraph_range" a ≤ recPairFst "paragraph_range" b)
      [slideChunkRecord 0 [] [] none 0 1 0 1 ['a']] := by
  have h : paraSlidingProcess ['a'] 1 1 [] [] none =
      Except.ok [slideChunkRecord 0 [] [] none 0 1 0 1 ['a']] := by
    simp [paraSlidingProcess, paragraphs_from_text, paragraphsPreMerge, splitBlankGo,
      lastNewlineIdx, isPySpace, stripFilter, pyStrip, mergeShortParas, cumOffsets,
      cumOffsetsFrom, slideLoop, slideBuildLoop, slideNextStart, nextParaSearch, nl2]
  exact ⟨h, C6_sliding_para_monotone ['a'] 1 1 [] [] none _ h⟩
theorem digitChar_inj_below_ten :
    ∀ d1, d1 < 10 → ∀ d2, d2 < 10 → Nat.digitChar d1 = Nat.digitChar d2 → d1 = d2 := by
  decide

theorem map_digitChar_inj :
    ∀ l1 l2 : List Nat, (∀ x ∈ l1, x < 10) → (∀ x ∈ l2, x < 10) →
      l1.map Nat.digitChar = l2.map Nat.digitChar → l1 = l2 := by
  intro l1
  induction l1 with
  | nil =>
    intro l2 _ _ h
    cases l2 with
    | nil => rfl
    | cons b t => simp at h
  | cons a t ih =>
    intro l2 h1 h2 h
    cases l2 with
    | nil => simp at h
    | cons b u =>
      simp only [List.map_cons, List.cons.injEq] at h
      have ha : a = b := digitChar_inj_below_ten a (h1 a (by simp)) b (h2 b (by simp)) h.1
      have ht := ih u (fun x hx => h1 x (by simp [hx])) (fun x hx => h2 x (by simp [hx])) h.2
      rw [ha, ht]

theorem natToDecimal_inj : ∀ m n : Nat, natToDecimal m = natToDecimal n → m = n := by
  have hzero : ∀ n : Nat, n ≠ 0 → natToDecimal n ≠ ['0'] := by
    intro n hn h
    unfold natToDecimal at h
    rw [if_neg hn] at h
    have hne : Nat.digits 10 n ≠ [] := Nat.digits_ne_nil_iff_ne_zero.mpr hn
    have hrev : (Nat.digits 10 n).map Nat.digitChar = ['0'].reverse := by
      rw [← h, List.reverse_reverse]
    simp only [List.reverse_singleton] at hrev
    cases hdig : Nat.digits 10 n with
    | nil => exact hne hdig
    | cons d rest =>
      rw [hdig] at hrev
      cases rest with
      | nil =>
        simp only [List.map_cons, List.map_nil, List.cons.injEq] at hrev
        have hd10 : d < 10 := Nat.digits_lt_base (by omega) (by rw [hdig]; simp)
        have hd0 : d = 0 := digitChar_inj_below_ten d hd10 0 (by omega) (by simpa using hrev.1)
        have hofd := Nat.ofDigits_digits 10 n
        rw [hdig] at hofd
        simp [Nat.ofDigits] at hofd
        omega
      | cons e rest2 => simp at hrev
  intro m n h
  by_cases hm : m = 0 <;> by_cases hn : n = 0
  · omega
  · subst hm
    unfold natToDecimal at h
    rw [if_pos rfl] at h
    exact absurd h.symm (hzero n hn)
  · subst hn
    unfold natToDecimal at h
    rw [if_pos rfl] at h
    exact absurd h (hzero m hm)
  · unfold natToDecimal at h
    rw [if_neg hm, if_neg hn] at h
    have h2 := congrArg List.reverse h
    simp only [List.reverse_reverse] at h2
    have h3 := map_digitChar_inj (Nat.digits 10 m) (Nat.digits 10 n)
      (fun x hx => Nat.digits_lt_base (by omega) hx)
      (fun x hx => Nat.digits_lt_base (by omega) hx) h2
    have := congrArg (Nat.ofDigits 10) h3
    rwa [Nat.ofDigits_digits, Nat.ofDigits_digits] at this

theorem encodedId_inj (pre : List Char) (k1 k2 : Nat)
    (h : (FieldVal.vStr (pre ++ natToDecimal k1)) = (FieldVal.vStr (pre ++ natToDecimal k2))) :
    k1 = k2 := by
  injection h with h2
  exact natToDecimal_inj k1 k2 (List.append_cancel_left h2)

theorem fixedLoop_id_spec (text : List Char) (chunkSize overlap : Nat)
    (hcs : 0 < chunkSize) (source : List Char) :
    ∀ n start idx, text.length - start ≤ n →
      (∀ r ∈ fixedLoop text chunkSize overlap hcs source start idx,
        ∃ k, idx ≤ k ∧ r.2.2.lookup "id" =
          some (.vStr ("chunk_".toList ++ natToDecimal k))) ∧
      List.Pairwise (fun a b => a.2.2.lookup "id" ≠ b.2.2.lookup "id")
        (fixedLoop text chunkSize overlap hcs source start idx) := by
  intro n
  induction n with
  | zero =>
    intro start idx hn
    rw [fixedLoop, dif_neg (by omega)]
    exact ⟨by simp, List.Pairwise.nil⟩
  | succ n ih =>
    intro start idx hn
    rw [fixedLoop]
    by_cases hs : start < text.length
    · rw [dif_pos hs]
      dsimp only
      have hnext := fixedNextStart_gt start (min (start + chunkSize) text.length)
        overlap (by omega)
      have hih := ih (fixedNextStart start (min (start + chunkSize) text.length)
        overlap) (idx + 1) (by omega)
      constructor
      · intro r hr
        rcases List.mem_cons.mp hr with hhead | hmem
        · subst hhead
          exact ⟨idx, le_rfl, rfl⟩
        · obtain ⟨k, hk, hid⟩ := hih.1 r hmem
          exact ⟨k, by omega, hid⟩
      · rw [List.pairwise_cons]
        refine ⟨?_, hih.2⟩
        intro b hb
        obtain ⟨k, hk, hid⟩ := hih.1 b hb
        dsimp only
        rw [hid]
        show some (FieldVal.vStr ("chunk_".toList ++ natToDecimal idx)) ≠ _
        intro hcontra
        injection hcontra with hcontra2
        have := encodedId_inj "chunk_".toList idx k hcontra2
        omega
    · rw [dif_neg hs]
      exact ⟨by simp, List.Pairwise.nil⟩

theorem slidingWindowLoop_id_spec (text : List Char) (windowSize stride : Nat)
    (hs : 0 < stride) (source : List Char) :
    ∀ n start idx, text.length - start ≤ n →
      (∀ r ∈ slidingWindowLoop text windowSize stride hs source start idx,
        ∃ k, idx ≤ k ∧ r.lookup "id" =
          some (.vStr ("slide_chunk_".toList ++ natToDecimal k))) ∧
      List.Pairwise (fun a b : ChunkRec => a.lookup "id" ≠ b.lookup "id")
        (slidingWindowLoop text windowSize stride hs source start idx) := by
  intro n
  induction n with
  | zero =>
    intro start idx hn
    rw [slidingWindowLoop, dif_neg (by omega)]
    exact ⟨by simp, List.Pairwise.nil⟩
  | succ n ih =>
    intro start idx hn
    rw [slidingWindowLoop]
    by_cases hlt : start < text.length
    · rw [dif_pos hlt]
      dsimp only
      have hih := ih (start + stride) (idx + 1) (by omega)
      constructor
      · intro r hr
        rcases List.mem_cons.mp hr with hhead | hmem
        · subst hhead
          exact ⟨idx, le_rfl, rfl⟩
        · obtain ⟨k, hk, hid⟩ := hih.1 r hmem
          exact ⟨k, by omega, hid⟩
      · rw [List.pairwise_cons]
        refine ⟨?_, hih.2⟩
        intro b hb
        obtain ⟨k, hk, hid⟩ := hih.1 b hb
        rw [hid]
        show some (FieldVal.vStr ("slide_chunk_".toList ++ natToDecimal idx)) ≠ _
        intro hcontra
        injection hcontra with hcontra2
        have := encodedId_inj "slide_chunk_".toList idx k hcontra2
        omega
    · rw [dif_neg hlt]
      exact ⟨by simp, List.Pairwise.nil⟩

theorem slideLoop_id_spec (paras : List (List Char)) (cum : List Nat)
    (maxChars stride : Nat) (source storyTitle : List Char)
    (chapterIdx : Option Nat) :
    ∀ n startPara chunkIdx, paras.length - startPara ≤ n →
      (∀ r ∈ slideLoop paras cum maxChars stride source storyTitle chapterIdx
          startPara chunkIdx,
        ∃ k, chunkIdx ≤ k ∧ r.lookup "chunk_id" =
          some (.vStr ("para_slide_chunk_".toList ++ natToDecimal k))) ∧
      List.Pairwise (fun a b : ChunkRec => a.lookup "chunk_id" ≠ b.lookup "chunk_id")
        (slideLoop paras cum maxChars stride source storyTitle chapterIdx
          startPara chunkIdx) := by
  intro n
  induction n with
  | zero =>
    intro startPara chunkIdx hn
    rw [slideLoop, dif_neg (by omega)]
    exact ⟨by simp, List.Pairwise.nil⟩
  | succ n ih =>
    intro startPara chunkIdx hn
    rw [slideLoop]
    by_cases hsp : startPara < paras.length
    · rw [dif_pos hsp]
      dsimp only
      have hprog : startPara < slideNextStart cum stride startPara
          (slideBuildLoop paras maxChars startPara startPara []).1 paras.length :=
        slideNextStart_gt _ _ _ _ _
          (slideBuildLoop_start_gt paras maxChars startPara hsp)
      have hih := ih (slideNextStart cum stride startPara
          (slideBuildLoop paras maxChars startPara startPara []).1 paras.length)
        (chunkIdx + 1) (by omega)
      constructor
      · intro r hr
        rcases List.mem_cons.mp hr with hhead | hmem
        · subst hhead
          exact ⟨chunkIdx, le_rfl, rfl⟩
        · obtain ⟨k, hk, hid⟩ := hih.1 r hmem
          exact ⟨k, by omega, hid⟩
      · rw [List.pairwise_cons]
        refine ⟨?_, hih.2⟩
        intro b hb
        obtain ⟨k, hk, hid⟩ := hih.1 b hb
        rw [hid]
        show some (FieldVal.vStr ("para_slide_chunk_".toList ++ natToDecimal chunkIdx)) ≠ _
        intro hcontra
        injection hcontra with hcontra2
        have := encodedId_inj "para_slide_chunk_".toList chunkIdx k hcontra2
        omega
    · rw [dif_neg hsp]
      exact ⟨by simp, List.Pairwise.nil⟩

/-- The dict literal appended in SentenceChunkProcessor.process
(sentance.py lines 58-65). -/
def sentenceChunkRecord (idx : Nat) (source sentence : List Char) : ChunkRec :=
  [("id", .vStr ("sent_chunk_".toList ++ natToDecimal idx)),
   ("source", .vStr source),
   ("chunk_index", .vNat idx),
   ("text", .vStr sentence)]

/-- The enumerate loop of SentenceChunkProcessor.process (sentance.py lines
56-65), applied to the already split sentence list. -/
def sentenceChunks (sentences : List (List Char)) (source : List Char) :
    List ChunkRec :=
  sentences.enum.map (fun p => sentenceChunkRecord p.1 source p.2)

/-- The dict literal appended in ParagraphChunkProcessor.process
(paragraph.py lines 48-55). -/
def paragraphChunkRecord (idx : Nat) (source para : List Char) : ChunkRec :=
  [("id", .vStr ("para_chunk_".toList ++ natToDecimal idx)),
   ("source", .vStr source),
   ("chunk_index", .vNat idx),
   ("text", .vStr para)]

/-- ParagraphChunkProcessor.process (paragraph.py lines 28-60): split into
paragraphs and emit one record per paragraph via enumerate. -/
def paragraphProcessChunks (text : List Char) (source : List Char) : List ChunkRec :=
  (split_into_paragraphs text).enum.map (fun p => paragraphChunkRecord p.1 source p.2)

theorem enumFrom_fst_ge {α : Type} :
    ∀ (l : List α) (n : Nat) (p : Nat × α), p ∈ List.enumFrom n l → n ≤ p.1 := by
  intro l
  induction l with
  | nil => intro n p hp; simp [List.enumFrom] at hp
  | cons a t ih =>
    intro n p hp
    rcases List.mem_cons.mp hp with hhead | hmem
    · subst hhead; exact le_rfl
    · have := ih (n + 1) p hmem
      omega

theorem pairwise_enumFrom_lt {α : Type} :
    ∀ (l : List α) (n : Nat),
      List.Pairwise (fun a b : Nat × α => a.1 < b.1) (List.enumFrom n l) := by
  intro l
  induction l with
  | nil => intro n; exact List.Pairwise.nil
  | cons a t ih =>
    intro n
    rw [List.enumFrom, List.pairwise_cons]
    refine ⟨?_, ih (n + 1)⟩
    intro b hb
    have := enumFrom_fst_ge t (n + 1) b hb
    omega

theorem enumChunks_id_spec (mk : Nat → List Char → List Char → ChunkRec)
    (pre : List Char)
    (hmk : ∀ i src x, (mk i src x).lookup "id" =
      some (.vStr (pre ++ natToDecimal i)))
    (items : List (List Char)) (src : List Char) :
    (∀ r ∈ items.enum.map (fun p => mk p.1 src p.2),
      ∃ k, r.lookup "id" = some (.vStr (pre ++ natToDecimal k))) ∧
    List.Pairwise (fun a b : ChunkRec => a.lookup "id" ≠ b.lookup "id")
      (items.enum.map (fun p => mk p.1 src p.2)) := by
  constructor
  · intro r hr
    obtain ⟨p, hp, hpr⟩ := List.mem_map.mp hr
    exact ⟨p.1, by rw [← hpr]; exact hmk p.1 src p.2⟩
  · refine List.Pairwise.map _ ?_ (pairwise_enumFrom_lt items 0)
    intro a b hab
    rw [hmk a.1 src a.2, hmk b.1 src b.2]
    intro hcontra
    injection hcontra with hcontra2
    have := encodedId_inj pre a.1 b.1 hcontra2
    omega

theorem hybridLoop_id_present (sentences : List (List Char))
    (maxSentences maxChars minSentences overlap : Nat) (source : List Char)
    (uuids : Nat → List Char) :
    ∀ n i idx, sentences.length - i ≤ n →
      ∀ g ∈ hybridLoop sentences maxSentences maxChars minSentences overlap
          source uuids i idx,
        ∃ u, g.2.lookup "id" = some (.vStr ("hyb_".toList ++ u)) := by
  intro n
  induction n with
  | zero =>
    intro i idx hn g hg
    rw [hybridLoop, dif_neg (by omega)] at hg
    exact absurd hg (List.not_mem_nil g)
  | succ n ih =>
    intro i idx hn g hg
    rw [hybridLoop] at hg
    by_cases hi : i < sentences.length
    · rw [dif_pos hi] at hg
      dsimp only at hg
      rcases List.mem_cons.mp hg with hhead | hmem
      · subst hhead
        exact ⟨uuids idx, rfl⟩
      · have hgt := hybridChunkStart_fst_gt sentences maxSentences maxChars
          minSentences i hi
        have hnext : i < hybridNextI i (hybridChunkStart sentences maxSentences
            maxChars minSentences i).1 overlap := by
          unfold hybridNextI
          dsimp only
          split <;> omega
        exact ih (hybridNextI i (hybridChunkStart sentences maxSentences maxChars
          minSentences i).1 overlap) (idx + 1) (by omega) g hmem
    · rw [dif_neg hi] at hg
      exact absurd hg (List.not_mem_nil g)

/-- C7 (amended): chunk identifiers per strategy.  The fixed, sentence,
paragraph and sliding-window chunkers each emit records carrying a string
field id of the form prefix plus decimal chunk index, pairwise distinct
within the run; the hybrid chunker records carry an id field (a random
hyb-prefixed uuid fragment, so uniqueness is only probabilistic and not
provable); the paragraph-sliding chunker stores its unique per-run
identifier under the key chunk_id instead of id. -/
theorem C7_chunk_ids_unique_per_run :
    (∀ (text : List Char) (chunkSize overlap : Nat) (hcs : 0 < chunkSize)
        (source : List Char),
      (∀ r ∈ fixedLoop text chunkSize overlap hcs source 0 0,
        ∃ k, r.2.2.lookup "id" = some (.vStr ("chunk_".toList ++ natToDecimal k))) ∧
      List.Pairwise (fun a b : ChunkRec => a.lookup "id" ≠ b.lookup "id")
        ((fixedLoop text chunkSize overlap hcs source 0 0).map (fun r => r.2.2))) ∧
    (∀ (text : List Char) (windowSize stride : Nat) (hs : 0 < stride)
        (source : List Char),
      (∀ r ∈ slidingWindowLoop text windowSize stride hs source 0 0,
        ∃ k, r.lookup "id" = some (.vStr ("slide_chunk_".toList ++ natToDecimal k))) ∧
      List.Pairwise (fun a b : ChunkRec => a.lookup "id" ≠ b.lookup "id")
        (slidingWindowLoop text windowSize stride hs source 0 0)) ∧
    (∀ (sentences : List (List Char)) (source : List Char),
      (∀ r ∈ sentenceChunks sentences source,
        ∃ k, r.lookup "id" = some (.vStr ("sent_chunk_".toList ++ natToDecimal k))) ∧
      List.Pairwise (fun a b : ChunkRec => a.lookup "id" ≠ b.lookup "id")
        (sentenceChunks sentences source)) ∧
    (∀ (text source : List Char),
      (∀ r ∈ paragraphProcessChunks text source,
        ∃ k, r.lookup "id" = some (.vStr ("para_chunk_".toList ++ natToDecimal k))) ∧
      List.Pairwise (fun a b : ChunkRec => a.lookup "id" ≠ b.lookup "id")
        (paragraphProcessChunks text source)) ∧
    (∀ (sentences : List (List Char)) (maxSentences maxChars minSentences
        overlap : Nat) (source : List Char) (uuids : Nat → List Char) (i idx : Nat),
      ∀ g ∈ hybridLoop sentences maxSentences maxChars minSentences overlap
          source uuids i idx,
        ∃ u, g.2.lookup "id" = some (.vStr ("hyb_".toList ++ u))) ∧
    (∀ (text : List Char) (windowSize stride : Nat) (source storyTitle : List Char)
        (chapterIdx : Option Nat) (recs : List ChunkRec),
      paraSlidingProcess text windowSize stride source storyTitle chapterIdx =
        .ok recs →
      (∀ r ∈ recs, ∃ k, r.lookup "chunk_id" =
        some (.vStr ("para_slide_chunk_".toList ++ natToDecimal k))) ∧
      List.Pairwise (fun a b : ChunkRec => a.lookup "chunk_id" ≠ b.lookup "chunk_id")
        recs) := by
  refine ⟨?_, ?_, ?_, ?_, ?_, ?_⟩
  · intro text chunkSize overlap hcs source
    have h := fixedLoop_id_spec text chunkSize overlap hcs source text.length 0 0
      (by omega)
    exact ⟨fun r hr => (h.1 r hr).imp (fun k hk => hk.2),
      (List.pairwise_map).mpr h.2⟩
  · intro text windowSize stride hs source
    have h := slidingWindowLoop_id_spec text windowSize stride hs source
      text.length 0 0 (by omega)
    exact ⟨fun r hr => (h.1 r hr).imp (fun k hk => hk.2), h.2⟩
  · intro sentences source
    exact enumChunks_id_spec sentenceChunkRecord "sent_chunk_".toList
      (fun i src x => rfl) sentences source
  · intro text source
    exact enumChunks_id_spec paragraphChunkRecord "para_chunk_".toList
      (fun i src x => rfl) (split_into_paragraphs text) source
  · intro sentences maxSentences maxChars minSentences overlap source uuids i idx
    exact hybridLoop_id_present sentences maxSentences maxChars minSentences
      overlap source uuids (sentences.length - i) i idx le_rfl
  · intro text windowSize stride source storyTitle chapterIdx recs h
    unfold paraSlidingProcess at h
    dsimp only at h
    split at h
    · cases h
      exact ⟨by simp, List.Pairwise.nil⟩
    · split at h
      · cases h
      · cases h
        have h2 := slideLoop_id_spec (paragraphs_from_text text)
          (cumOffsets (paragraphs_from_text text)) windowSize stride source
          storyTitle chapterIdx ((paragraphs_from_text text).length) 0 0 (by omega)
        exact ⟨fun r hr => (h2.1 r hr).imp (fun k hk => hk.2), h2.2⟩

theorem C7_chunk_ids_unique_per_run_witness :
    (0 < 1 ∧ 0 < 1 ∧
      paraSlidingProcess ['a'] 1 1 [] [] none =
        Except.ok [slideChunkRecord 0 [] [] none 0 1 0 1 ['a']]) ∧
    ((∀ r ∈ fixedLoop ['a'] 1 0 (Nat.succ_pos 0) [] 0 0,
        ∃ k, r.2.2.lookup "id" = some (.vStr ("chunk_".toList ++ natToDecimal k))) ∧
     (∀ r ∈ sentenceChunks [['a']] [],
        ∃ k, r.lookup "id" = some (.vStr ("sent_chunk_".toList ++ natToDecimal k))) ∧
     (∀ r ∈ [slideChunkRecord 0 [] [] none 0 1 0 1 ['a']],
        ∃ k, r.lookup "chunk_id" =
          some (.vStr ("para_slide_chunk_".toList ++ natToDecimal k)))) := by
  have hok : paraSlidingProcess ['a'] 1 1 [] [] none =
      Except.ok [slideChunkRecord 0 [] [] none 0 1 0 1 ['a']] := by
    simp [paraSlidingProcess, paragraphs_from_text, paragraphsPreMerge, splitBlankGo,
      lastNewlineIdx, isPySpace, stripFilter, pyStrip, mergeShortParas, cumOffsets,
      cumOffsetsFrom, slideLoop, slideBuildLoop, slideNextStart, nextParaSearch, nl2]
  refine ⟨⟨Nat.succ_pos 0, Nat.succ_pos 0, hok⟩, ?_, ?_, ?_⟩
  · exact (C7_chunk_ids_unique_per_run.1 ['a'] 1 0 (Nat.succ_pos 0) []).1
  · exact (C7_chunk_ids_unique_per_run.2.2.1 [['a']] []).1
  · exact (C7_chunk_ids_unique_per_run.2.2.2.2.2 ['a'] 1 1 [] [] none
      [slideChunkRecord 0 [] [] none 0 1 0 1 ['a']] hok).1
theorem lastNewlineIdx_none_spec :
    ∀ l : List Char, lastNewlineIdx l = none →
      ∀ j, j < l.length → l.getD j ' ' ≠ '\n' := by
  intro l
  induction l with
  | nil => intro _ j hj; simp at hj
  | cons c rest ih =>
    intro h j hj
    rw [lastNewlineIdx] at h
    cases hrest : lastNewlineIdx rest with
    | some k => rw [hrest] at h; simp at h
    | none =>
      rw [hrest] at h
      by_cases hc : c = '\n'
      · rw [if_pos hc] at h; simp at h
      · cases j with
        | zero => simpa using hc
        | succ j =>
          rw [List.getD_cons_succ]
          exact ih hrest j (by simpa using hj)

theorem lastNewlineIdx_some_spec :
    ∀ (l : List Char) (k : Nat), lastNewlineIdx l = some k →
      k < l.length ∧ l.getD k ' ' = '\n' ∧
        ∀ j, k < j → j < l.length → l.getD j ' ' ≠ '\n' := by
  intro l
  induction l with
  | nil => intro k h; simp [lastNewlineIdx] at h
  | cons c rest ih =>
    intro k h
    rw [lastNewlineIdx] at h
    cases hrest : lastNewlineIdx rest with
    | some m =>
      rw [hrest] at h
      simp only [Option.some.injEq] at h
      subst h
      obtain ⟨h1, h2, h3⟩ := ih m hrest
      refine ⟨by simpa using h1, by simpa using h2, ?_⟩
      intro j hj1 hj2
      cases j with
      | zero => omega
      | succ j =>
        rw [List.getD_cons_succ]
        exact h3 j (by omega) (by simpa using hj2)
    | none =>
      rw [hrest] at h
      by_cases hc : c = '\n'
      · rw [if_pos hc] at h
        simp only [Option.some.injEq] at h
        subst h
        refine ⟨by simp, by simpa using hc, ?_⟩
        intro j hj1 hj2
        cases j with
        | zero => omega
        | succ j =>
          rw [List.getD_cons_succ]
          exact lastNewlineIdx_none_spec rest hrest j (by simpa using hj2)
      · rw [if_neg hc] at h
        simp at h

theorem isPySpace_newline : isPySpace '\n' = true := by decide

theorem dropWhile_head_not (p : Char → Bool) :
    ∀ (l : List Char) (a : Char) (u : List Char),
      l.dropWhile p = a :: u → ¬ p a = true := by
  intro l
  induction l with
  | nil => intro a u h; simp at h
  | cons c rest ih =>
    intro a u h
    rw [List.dropWhile_cons] at h
    by_cases hc : p c = true
    · rw [if_pos hc] at h
      exact ih a u h
    · rw [if_neg hc] at h
      injection h with h1 h2
      rw [← h1]
      exact hc

theorem newlineRun_one (rest : List Char) (k : Nat)
    (h : lastNewlineIdx (rest.takeWhile isPySpace) = some k) :
    ((rest.drop k).takeWhile (fun d => d = '\n')).length = 1 := by
  obtain ⟨hk, hkN, hafter⟩ := lastNewlineIdx_some_spec (rest.takeWhile isPySpace) k h
  have hpre : rest.takeWhile isPySpace <+: rest := List.takeWhile_prefix _
  obtain ⟨t, ht⟩ := hpre
  have hklen : k < rest.length := by
    have := List.length_append (rest.takeWhile isPySpace) t
    rw [ht] at this
    omega
  have hrk : rest.getD k ' ' = '\n' := by
    have h2 := List.getD_append (rest.takeWhile isPySpace) t ' ' k hk
    rw [ht] at h2
    rw [h2]
    exact hkN
  have hdropk : rest.drop k = rest.getD k ' ' :: rest.drop (k + 1) := by
    rw [List.getD_eq_getElem _ _ hklen]
    exact List.drop_eq_getElem_cons hklen
  rw [hdropk, hrk]
  rw [List.takeWhile_cons]
  simp only [decide_True, if_true]
  have htail : (rest.drop (k + 1)).takeWhile (fun d => decide (d = '\n')) = [] := by
    by_cases hk1 : k + 1 < rest.length
    · have hdropk1 : rest.drop (k + 1) =
          rest.getD (k + 1) ' ' :: rest.drop (k + 2) := by
        rw [List.getD_eq_getElem _ _ hk1]
        exact List.drop_eq_getElem_cons hk1
      have hne : ¬ rest.getD (k + 1) ' ' = '\n' := by
        by_cases hcase : k + 1 < (rest.takeWhile isPySpace).length
        · have h2 := List.getD_append (rest.takeWhile isPySpace) t ' ' (k + 1) hcase
          rw [ht] at h2
          rw [h2]
          exact hafter (k + 1) (by omega) hcase
        · have hrun : (rest.takeWhile isPySpace).length = k + 1 := by omega
          have htne : t ≠ [] := by
            intro hte
            rw [hte, List.append_nil] at ht
            rw [ht] at hrun
            omega
          have hteq : rest.dropWhile isPySpace = t := by
            have hsplit := List.takeWhile_append_dropWhile (p := isPySpace) (l := rest)
            exact List.append_cancel_left (hsplit.trans ht.symm)
          cases t with
          | nil => exact absurd rfl htne
          | cons a u =>
            have hhead : ¬ isPySpace a = true := dropWhile_head_not isPySpace rest a u hteq
            have ht0 : rest.getD (k + 1) ' ' = a := by
              have h2 := List.getD_append_right (rest.takeWhile isPySpace) (a :: u)
                ' ' (k + 1) (by omega)
              rw [ht] at h2
              rw [h2, hrun]
              simp
            rw [ht0]
            intro hcontra
            rw [hcontra] at hhead
            exact hhead isPySpace_newline
      rw [hdropk1, List.takeWhile_cons]
      simp only [decide_eq_true_eq]
      rw [if_neg hne]
    · have hnil : rest.drop (k + 1) = [] := List.drop_eq_nil_of_le (by omega)
      rw [hnil]
      rfl
  rw [htail]
  rfl

theorem splitBlankPlusGo_eq_splitBlankGo :
    ∀ cs acc, splitBlankPlusGo cs acc = splitBlankGo cs acc := by
  have key : ∀ n cs acc, (cs : List Char).length ≤ n →
      splitBlankPlusGo cs acc = splitBlankGo cs acc := by
    intro n
    induction n with
    | zero =>
      intro cs acc hn
      have : cs = [] := List.eq_nil_of_length_eq_zero (by omega)
      subst this
      rw [splitBlankGo, splitBlankPlusGo]
    | succ n ih =>
      intro cs acc hn
      cases cs with
      | nil => rw [splitBlankGo, splitBlankPlusGo]
      | cons c rest =>
        rw [splitBlankGo, splitBlankPlusGo]
        by_cases hc : c = '\n'
        · rw [if_pos hc, if_pos hc]
          cases hlast : lastNewlineIdx (rest.takeWhile isPySpace) with
          | some k =>
            dsimp only
            rw [newlineRun_one rest k hlast]
            rw [ih (rest.drop (k + 1)) []
              (by have := List.length_drop (k + 1) rest; simp at hn ⊢; omega)]
          | none =>
            exact ih rest (c :: acc) (by simpa using hn)
        · rw [if_neg hc, if_neg hc]
          exact ih rest (c :: acc) (by simpa using hn)
  intro cs acc
  exact key cs.length cs acc le_rfl

theorem normalizeNewlines_eq_self :
    ∀ text : List Char, (∀ c ∈ text, ¬ c = '\r') → normalizeNewlines text = text := by
  intro text
  induction text with
  | nil => intro _; rfl
  | cons c rest ih =>
    intro h
    have hc : ¬ c = '\r' := h c (by simp)
    rw [normalizeNewlines.eq_def]
    split
    · rename_i heq
      simp at heq
    · rename_i r1 heq
      injection heq with h1 h2
      exact absurd h1 hc
    · rename_i r1 heq hne
      injection hne with h1 h2
      exact absurd h1 hc
    · rename_i c2 rest2 heq hne1 hne2
      injection hne2 with h1 h2
      rw [← h1, ← h2]
      rw [ih (fun x hx => h x (by simp [hx]))]

/-- C8 counterexample: on the text a-CR-CR-b the pre-merge split of the
paragraph-sliding chunker keeps one paragraph (its regex runs on the raw
text, which contains no newline), while the section-4.2 splitter first
normalizes the carriage returns to newlines and yields two paragraphs. -/
theorem C8_split_differs_on_carriage_returns :
    ¬ (paragraphsPreMerge ['a', '\r', '\r', 'b'] =
      split_into_paragraphs ['a', '\r', '\r', 'b']) := by
  have h1 : paragraphsPreMerge ['a', '\r', '\r', 'b'] = [['a', '\r', '\r', 'b']] := by
    simp [paragraphsPreMerge, splitBlankGo, lastNewlineIdx, isPySpace, stripFilter,
      pyStrip]
  have h2 : split_into_paragraphs ['a', '\r', '\r', 'b'] = [['a'], ['b']] := by
    simp [split_into_paragraphs, splitBlankPlusGo, normalizeNewlines, lastNewlineIdx,
      isPySpace, stripFilter, pyStrip]
  rw [h1, h2]
  decide

/-- C8 (amended): on every text free of carriage returns the pre-merge
split of the paragraph-sliding chunker coincides with the section-4.2
paragraph splitter: without CR the normalization is the identity, and the
two blank-line regexes match identically (the greedy whitespace stretch
always ends just before the last newline of the run, so the trailing
newline-plus can only consume that one newline). -/
theorem C8_paragraph_split_agreement (text : List Char)
    (h : ∀ c ∈ text, ¬ c = '\r') :
    paragraphsPreMerge text = split_into_paragraphs text := by
  unfold paragraphsPreMerge split_into_paragraphs
  rw [normalizeNewlines_eq_self text h, splitBlankPlusGo_eq_splitBlankGo]

theorem C8_paragraph_split_agreement_witness :
    (∀ c ∈ (['a', '\n', '\n', 'b'] : List Char), ¬ c = '\r') ∧
      paragraphsPreMerge ['a', '\n', '\n', 'b'] =
        split_into_paragraphs ['a', '\n', '\n', 'b'] :=
  ⟨by decide, C8_paragraph_split_agreement ['a', '\n', '\n', 'b'] (by decide)⟩
